import Mathlib

/-!
Verification development for the PRM core of the promptitecture repository:
a shallow embedding of `src/javascript/prm/LocalPlanner.js` and
`src/javascript/prm/PathRanker.js` in Lean 4, with theorems settling the
spec claims about those two engines.

Modelling conventions
* JS numbers are modelled as `ℚ` (`parallelizationFactor` as `ℤ`, matching
  the data model "non-negative integer" and the fact that interpolated
  waypoints store a `Math.round` result).  `Math.exp` and `Math.sqrt`
  produce irrational values, so they are passed in as abstract functions
  `ℚ → ℚ`; no claim below depends on their concrete values.
* `Math.random() > t` inside `_interpolateSequence` is modelled by an
  explicit boolean oracle (one boolean per waypoint index and position),
  universally quantified in every theorem that touches it.
* The synthetic `id` string of a waypoint (built from `Date.now()`) takes
  part in no computation and is omitted from the configuration record.
* JS comparisons against `undefined` are `false`; optional constraint
  fields are therefore modelled as `Option ℚ`, with `none` producing no
  constraint violation, exactly as `x > undefined` is `false`.
* `x || d` on numbers yields `d` when `x` is falsy (`0` or absent); on a
  present number it is `jsOr`.
* `ℚ` division is total with `q / 0 = 0` where IEEE would produce `NaN`
  (only reachable here for empty layer sequences); the claims below never
  depend on that corner.
-/

namespace PRM

/-- A configuration: a point in the design space
(`Configuration` of the data model, §3 of the design document). -/
structure Config where
  layerSequence : List String
  confidenceThreshold : ℚ
  parallelizationFactor : ℤ
  processingMode : String
  tokenCost : ℚ
deriving DecidableEq, Inhabited

/-- Optional resource constraints (`architecture.constraints`);
`none` means the field is absent. -/
structure Constraints where
  maxTokens : Option ℚ
  minConfidence : Option ℚ
deriving DecidableEq, Inhabited

/-- The validity/cost context (`architecture`). `layerDependencies` is the
JS object access `dependencies[current] || []` folded into a total
function. -/
structure Architecture where
  layerDependencies : String → List String
  constraints : Constraints

/-- Constructor options of `LocalPlanner` (after defaulting). -/
structure PlannerOptions where
  interpolationSteps : ℕ
  collisionCheckEnabled : Bool
  maxTransitionCost : ℚ
deriving DecidableEq, Inhabited

/-- Result record of `LocalPlanner.plan`. -/
structure PlanResult where
  waypoints : List Config
  cost : ℚ
  probability : ℚ
  isValid : Bool
  numSteps : ℕ
deriving DecidableEq

/-- `Array.prototype.includes`, over a decidable-equality element type. -/
def includes {α : Type} [DecidableEq α] (l : List α) (x : α) : Bool :=
  decide (x ∈ l)

/-- JS `x || d` for a numeric `x`: `0` is falsy. -/
def jsOr (x d : ℚ) : ℚ :=
  if x = 0 then d else x

/-- JS `Math.round`: round half toward positive infinity. -/
def jsRound (x : ℚ) : ℤ :=
  ⌊x + 1 / 2⌋

/-- `LocalPlanner._lerp`: linear interpolation. -/
def lerp (a b t : ℚ) : ℚ :=
  a * (1 - t) + b * t

/-- The `if (!hybrid.includes(v)) hybrid.push(v)` idiom of
`_interpolateSequence`. -/
def pushUnique (l : List String) (x : String) : List String :=
  if includes l x then l else l ++ [x]

/-- One iteration of the hybrid-building loop of `_interpolateSequence`
at position `i`; `rand i` is the outcome of the comparison
`Math.random() > t` (evaluated only when `i < seqA.length`, thanks to
`&&` short-circuiting — the oracle is simply unused otherwise). -/
def hybridStep (rand : ℕ → Bool) (seqA seqB : List String)
    (acc : List String) (i : ℕ) : List String :=
  if i < seqA.length ∧ rand i then
    pushUnique acc (seqA.getD i "")
  else if i < seqB.length then
    pushUnique acc (seqB.getD i "")
  else acc

/-- `LocalPlanner._interpolateSequence`. -/
def interpolateSequence (rand : ℕ → Bool) (seqA seqB : List String)
    (t : ℚ) : List String :=
  if t = 0 then seqA
  else if t = 1 then seqB
  else
    let maxLen := max seqA.length seqB.length
    let hybrid := (List.range maxLen).foldl (hybridStep rand seqA seqB) []
    let h1 := if includes hybrid "Input" then hybrid else "Input" :: hybrid
    if includes h1 "Output" then h1 else h1 ++ ["Output"]

/-- `LocalPlanner._interpolate`: `interpolationSteps + 1` waypoints at
`t = i / steps`.  `rand i` is the oracle stream consumed while blending
the `i`-th waypoint's layer sequence. -/
def interpolate (opts : PlannerOptions) (rand : ℕ → ℕ → Bool)
    (configA configB : Config) : List Config :=
  (List.range (opts.interpolationSteps + 1)).map fun (i : ℕ) =>
    let t : ℚ := (i : ℚ) / (opts.interpolationSteps : ℚ)
    { layerSequence :=
        interpolateSequence (rand i) configA.layerSequence configB.layerSequence t
      confidenceThreshold :=
        lerp configA.confidenceThreshold configB.confidenceThreshold t
      parallelizationFactor :=
        jsRound (lerp (configA.parallelizationFactor : ℚ)
          (configB.parallelizationFactor : ℚ) t)
      processingMode :=
        if t < 1 / 2 then configA.processingMode else configB.processingMode
      tokenCost :=
        (jsRound (lerp (jsOr configA.tokenCost 0) (jsOr configB.tokenCost 0) t) : ℚ) }

/-- The `Input`/`Output` membership test opening
`_isLayerSequenceValid`. -/
def hasInputAndOutput (seq : List String) : Bool :=
  includes seq "Input" && includes seq "Output"

/-- The dependency loop of `_isLayerSequenceValid`: every layer at a
position `i ≥ 1` must have all of its declared dependencies occur
strictly earlier in the sequence. -/
def depsSatisfied (arch : Architecture) (seq : List String) : Bool :=
  (List.range seq.length).all fun i =>
    i == 0 ||
      (arch.layerDependencies (seq.getD i "")).all fun dep =>
        includes (seq.take i) dep

/-- `LocalPlanner._isLayerSequenceValid`. -/
def isLayerSequenceValid (seq : List String) (arch : Architecture) : Bool :=
  hasInputAndOutput seq && depsSatisfied arch seq

/-- The token-budget test of `_isValid`: in JS,
`config.tokenCost > architecture.constraints?.maxTokens` is `false`
whenever `maxTokens` is absent. -/
def exceedsMaxTokens (config : Config) (arch : Architecture) : Bool :=
  match arch.constraints.maxTokens with
  | some m => decide (m < config.tokenCost)
  | none => false

/-- The confidence-floor test of `_isValid`: in JS,
`config.confidenceThreshold < architecture.constraints?.minConfidence`
is `false` whenever `minConfidence` is absent. -/
def belowMinConfidence (config : Config) (arch : Architecture) : Bool :=
  match arch.constraints.minConfidence with
  | some m => decide (config.confidenceThreshold < m)
  | none => false

/-- `LocalPlanner._isValid`. -/
def isValidConfig (config : Config) (arch : Architecture) : Bool :=
  isLayerSequenceValid config.layerSequence arch &&
  !exceedsMaxTokens config arch &&
  !belowMinConfidence config arch

/-- `LocalPlanner._computeTransitionCost` (its `architecture` parameter is
unused in the source). -/
def computeTransitionCost (wp1 wp2 : Config) : ℚ :=
  let layerDiff : ℕ :=
    ((wp1.layerSequence.length : ℤ) - (wp2.layerSequence.length : ℤ)).natAbs
  let modeCost : ℚ := if wp1.processingMode ≠ wp2.processingMode then 100 else 0
  let confDiff : ℚ := |wp1.confidenceThreshold - wp2.confidenceThreshold|
  (layerDiff : ℚ) * 50 + modeCost + confDiff * 80 + 30

/-- `LocalPlanner._configDistance`. -/
def configDistance (configA configB : Config) : ℚ :=
  let maxLen : ℕ := max configA.layerSequence.length configB.layerSequence.length
  let seqDiff : ℚ :=
    (((configA.layerSequence.length : ℤ) - (configB.layerSequence.length : ℤ)).natAbs : ℚ)
      / (maxLen : ℚ)
  let confDiff : ℚ := |configA.confidenceThreshold - configB.confidenceThreshold|
  let parDiff : ℚ :=
    ((configA.parallelizationFactor - configB.parallelizationFactor).natAbs : ℚ) / 4
  seqDiff * 40 + confDiff * 30 + parDiff * 30

/-- `LocalPlanner._layerCompatibility`: Jaccard similarity of the two
token sets (sizes computed on deduplicated lists). -/
def layerCompatibility (seqA seqB : List String) : ℚ :=
  let setA := seqA.dedup
  let setB := seqB.dedup
  let inter := setA.filter fun x => includes setB x
  let union := (seqA ++ seqB).dedup
  (inter.length : ℚ) / (union.length : ℚ)

/-- `LocalPlanner._computeTransitionProbability`; `exp` abstracts
`Math.exp`. -/
def computeTransitionProbability (exp : ℚ → ℚ) (wp1 wp2 : Config)
    (arch : Architecture) : ℚ :=
  let distanceFactor := exp (-(configDistance wp1 wp2) / 50)
  let p1 := 1 * distanceFactor
  let p2 := if isValidConfig wp2 arch then p1 * (6 / 5) else p1 * (3 / 10)
  let p3 := p2 * layerCompatibility wp1.layerSequence wp2.layerSequence
  min 1 (max 0 p3)

/-- The consecutive pairs `(waypoints[i], waypoints[i+1])` walked by the
validation loop of `plan`. -/
def consecutivePairs (l : List Config) : List (Config × Config) :=
  l.zip l.tail

/-- The validation loop of `plan` (lines 33–56 of the source): walks the
consecutive pairs carrying the accumulated cost and probability, breaking
on an invalid earlier waypoint or on exceeding `maxTransitionCost`.
Returns `(isValid, totalCost, cumulativeProbability)`. -/
def planLoop (opts : PlannerOptions) (arch : Architecture) (exp : ℚ → ℚ) :
    List (Config × Config) → ℚ → ℚ → Bool × ℚ × ℚ
  | [], cost, prob => (true, cost, prob)
  | (wp1, wp2) :: rest, cost, prob =>
    if opts.collisionCheckEnabled && !isValidConfig wp1 arch then
      (false, cost, prob)
    else
      let cost1 := cost + computeTransitionCost wp1 wp2
      let prob1 := prob * computeTransitionProbability exp wp1 wp2 arch
      if opts.maxTransitionCost < cost1 then (false, cost1, prob1)
      else planLoop opts arch exp rest cost1 prob1

/-- `LocalPlanner.plan`. -/
def plan (opts : PlannerOptions) (exp : ℚ → ℚ) (rand : ℕ → ℕ → Bool)
    (configA configB : Config) (arch : Architecture) : PlanResult :=
  let waypoints := interpolate opts rand configA configB
  let r := planLoop opts arch exp (consecutivePairs waypoints) 0 1
  { waypoints := if r.1 then waypoints else []
    cost := r.2.1
    probability := r.2.2
    isValid := r.1
    numSteps := waypoints.length }

/-- Acceptance test of a shortcut candidate inside
`LocalPlanner.optimizePath`.  In the source, `optimizePath` invokes the
`async` method `this.plan(...)` without `await`, so `result` is a
`Promise` object: `result.isValid` and `result.cost` are `undefined`,
`undefined` is falsy and `undefined < maxTransitionCost` is `false` —
the test is therefore `false` for every candidate. -/
def shortcutTestOnPromise : Bool :=
  false

/-- The inner backward scan of `optimizePath`:
`for (i = waypoints.length - 1; i > current + 1; i--)`, accepting the
first candidate that passes the (promise-valued) test, falling back to
`current + 1`. -/
def scanFarthest (wps : List Config) (current : ℕ) : ℕ :=
  match (((List.range wps.length).filter fun i => current + 1 < i).reverse).find?
      (fun _ => shortcutTestOnPromise) with
  | some i => i
  | none => current + 1

/-- The outer `while (current < waypoints.length - 1)` loop of
`optimizePath`, fuelled: `current` grows by at least one each iteration,
so `wps.length` units of fuel always suffice. -/
def optimizeLoop (wps : List Config) : ℕ → ℕ → List Config → List Config
  | 0, _, acc => acc
  | fuel + 1, current, acc =>
    if current < wps.length - 1 then
      let farthest := scanFarthest wps current
      optimizeLoop wps fuel farthest (acc ++ [wps.getD farthest default])
    else acc

/-- `LocalPlanner.optimizePath` (the `architecture` argument only flows
into the discarded promise-valued `plan` calls, so it does not appear). -/
def optimizePath (wps : List Config) : List Config :=
  if wps.length ≤ 2 then wps
  else
    match wps with
    | [] => []
    | w :: _ => optimizeLoop wps wps.length 0 [w]

/-- Caller-supplied aggregate metrics of a full path. -/
structure Metrics where
  pathProbability : ℚ
  totalCost : ℚ
  pathLength : ℚ
  entropy : ℚ
deriving DecidableEq, Inhabited

/-- One input to `PathRanker.rank`: `{path, metrics}`.  The `path` object
takes part in the computation only through JS object identity (the
`===`-based `find` of `compare` and `sensitivityAnalysis`), so it is
modelled as an opaque numeric identity. -/
structure PathData where
  path : ℕ
  metrics : Metrics
deriving DecidableEq, Inhabited

/-- Ranking weights (`options.weights`). -/
structure Weights where
  probability : ℚ
  cost : ℚ
  length : ℚ
  entropy : ℚ
deriving DecidableEq, Inhabited

/-- The constructor defaults `0.35 / 0.30 / 0.15 / 0.20`. -/
def defaultWeights : Weights :=
  { probability := 35 / 100, cost := 30 / 100, length := 15 / 100, entropy := 20 / 100 }

/-- The four normalized metric values. -/
structure NormalizedMetrics where
  probability : ℚ
  cost : ℚ
  length : ℚ
  entropy : ℚ
deriving DecidableEq, Inhabited

/-- Output of `_calculateReliability`. -/
structure Reliability where
  score : ℚ
  level : String
  label : String
deriving DecidableEq, Inhabited

/-- Output of `_wilson95Interval`. -/
structure Wilson where
  lower : ℚ
  point : ℚ
  upper : ℚ
  margin : ℚ
  width : ℚ
deriving DecidableEq, Inhabited

/-- Output of `_generateRecommendation`. -/
structure Recommendation where
  action : String
  message : String
  priority : String
deriving DecidableEq, Inhabited

/-- One element of `rank`'s result. -/
structure RankedPath where
  rank : ℕ
  path : ℕ
  metrics : Metrics
  normalized : NormalizedMetrics
  reliability : Reliability
  confidence95 : Wilson
  compositeScore : ℚ
  recommendation : Recommendation
deriving DecidableEq, Inhabited

/-- `Math.min(...l)`; junk value `0` for the empty spread (JS yields
`Infinity`), unreachable for the non-empty path sets of the claims. -/
def listMin : List ℚ → ℚ
  | [] => 0
  | x :: xs => xs.foldl min x

/-- `Math.max(...l)`; junk value `0` for the empty spread (JS yields
`-Infinity`), unreachable for the non-empty path sets of the claims. -/
def listMax : List ℚ → ℚ
  | [] => 0
  | x :: xs => xs.foldl max x

/-- `PathRanker._normalize`. -/
def normalize (value mn mx : ℚ) : ℚ :=
  if mx = mn then 1 / 2 else (value - mn) / (mx - mn)

/-- `ranges.probability.min` of `_normalizeMetrics`. -/
def probRangeMin (allPaths : List PathData) : ℚ :=
  listMin (allPaths.map fun p => jsOr p.metrics.pathProbability 0)

/-- `ranges.probability.max` of `_normalizeMetrics`. -/
def probRangeMax (allPaths : List PathData) : ℚ :=
  listMax (allPaths.map fun p => jsOr p.metrics.pathProbability 1)

/-- `ranges.cost.min` of `_normalizeMetrics`. -/
def costRangeMin (allPaths : List PathData) : ℚ :=
  listMin (allPaths.map fun p => jsOr p.metrics.totalCost 0)

/-- `ranges.cost.max` of `_normalizeMetrics`. -/
def costRangeMax (allPaths : List PathData) : ℚ :=
  listMax (allPaths.map fun p => jsOr p.metrics.totalCost 1000)

/-- `ranges.length.min` of `_normalizeMetrics`. -/
def lengthRangeMin (allPaths : List PathData) : ℚ :=
  listMin (allPaths.map fun p => jsOr p.metrics.pathLength 1)

/-- `ranges.length.max` of `_normalizeMetrics`. -/
def lengthRangeMax (allPaths : List PathData) : ℚ :=
  listMax (allPaths.map fun p => jsOr p.metrics.pathLength 10)

/-- `ranges.entropy.min` of `_normalizeMetrics`. -/
def entropyRangeMin (allPaths : List PathData) : ℚ :=
  listMin (allPaths.map fun p => jsOr p.metrics.entropy 0)

/-- `ranges.entropy.max` of `_normalizeMetrics`. -/
def entropyRangeMax (allPaths : List PathData) : ℚ :=
  listMax (allPaths.map fun p => jsOr p.metrics.entropy 5)

/-- `PathRanker._normalizeMetrics`: min–max normalization against the
whole input set, with `cost`, `length` and `entropy` inverted. -/
def normalizeMetrics (m : Metrics) (allPaths : List PathData) : NormalizedMetrics :=
  { probability :=
      normalize (jsOr m.pathProbability 0) (probRangeMin allPaths) (probRangeMax allPaths)
    cost :=
      1 - normalize (jsOr m.totalCost 0) (costRangeMin allPaths) (costRangeMax allPaths)
    length :=
      1 - normalize (jsOr m.pathLength 1) (lengthRangeMin allPaths) (lengthRangeMax allPaths)
    entropy :=
      1 - normalize (jsOr m.entropy 0) (entropyRangeMin allPaths) (entropyRangeMax allPaths) }

/-- `PathRanker._calculateCompositeScore`. -/
def calculateCompositeScore (n : NormalizedMetrics) (w : Weights) : ℚ :=
  n.probability * w.probability + n.cost * w.cost +
    n.length * w.length + n.entropy * w.entropy

/-- `PathRanker._calculateReliability`. -/
def calculateReliability (p : ℚ) : Reliability :=
  { score := p
    level := if p > 8 / 10 then "high" else if p > 1 / 2 then "medium" else "low"
    label := if p > 8 / 10 then "✓ Alta" else if p > 1 / 2 then "⚠ Media" else "⚠ Baja" }

/-- `PathRanker._wilson95Interval`; `sqrt` abstracts `Math.sqrt`. -/
def wilson95Interval (sqrt : ℚ → ℚ) (p n : ℚ) : Wilson :=
  let z : ℚ := 196 / 100
  let denominator := 1 + z * z / n
  let center := (p + z * z / (2 * n)) / denominator
  let margin := z * sqrt (p * (1 - p) / n + z * z / (4 * n * n)) / denominator
  { lower := max 0 (center - margin)
    point := p
    upper := min 1 (center + margin)
    margin := margin
    width := 2 * margin }

/-- `PathRanker._generateRecommendation`. -/
def generateRecommendation (score : ℚ) (rel : Reliability) : Recommendation :=
  if score > 8 / 10 ∧ rel.level = "high" then
    { action := "recommend", message := "✓ Ruta óptima recomendada", priority := "high" }
  else if score > 6 / 10 ∧ rel.level ≠ "low" then
    { action := "consider", message := "→ Ruta viable, considerar", priority := "medium" }
  else
    { action := "avoid", message := "⚠ Ruta subóptima, evitar", priority := "low" }

/-- The body of the `paths.map(...)` callback of `rank`: builds one
ranked entry with its placeholder `rank: 0`. -/
def buildRankedItem (sqrt : ℚ → ℚ) (weights : Weights) (allPaths : List PathData)
    (pd : PathData) : RankedPath :=
  let normalized := normalizeMetrics pd.metrics allPaths
  let compositeScore := calculateCompositeScore normalized weights
  let reliability := calculateReliability pd.metrics.pathProbability
  { rank := 0
    path := pd.path
    metrics := pd.metrics
    normalized := normalized
    reliability := reliability
    confidence95 := wilson95Interval sqrt pd.metrics.pathProbability 100
    compositeScore := compositeScore
    recommendation := generateRecommendation compositeScore reliability }

/-- Stable insertion of `x` into a descending list: `x` goes after every
already-present element whose score is `≥` its own and before the first
strictly smaller one — the position a stable descending sort
(`ranked.sort((a, b) => b.compositeScore - a.compositeScore)`, stable per
ES2019) gives to a later-input element. -/
def insertDesc (x : RankedPath) : List RankedPath → List RankedPath
  | [] => [x]
  | y :: ys =>
    if y.compositeScore < x.compositeScore then x :: y :: ys
    else y :: insertDesc x ys

/-- Stable descending sort by `compositeScore` (insertion sort, folding
the input left to right so ties keep input order). -/
def sortDesc (l : List RankedPath) : List RankedPath :=
  l.foldl (fun acc x => insertDesc x acc) []

/-- The `ranked.forEach((item, idx) => item.rank = idx + 1)` pass. -/
def assignRanks : ℕ → List RankedPath → List RankedPath
  | _, [] => []
  | i, x :: xs => { x with rank := i } :: assignRanks (i + 1) xs

/-- `PathRanker.rank` with the weight set already resolved. -/
def rankWith (sqrt : ℚ → ℚ) (weights : Weights) (paths : List PathData) :
    List RankedPath :=
  assignRanks 1 (sortDesc (paths.map (buildRankedItem sqrt weights paths)))

/-- `PathRanker.rank`: `options.weights || this.options.weights` (a JS
object is always truthy, so `||` here is a presence test). -/
def rank (sqrt : ℚ → ℚ) (activeWeights : Weights) (paths : List PathData)
    (optWeights : Option Weights) : List RankedPath :=
  rankWith sqrt (optWeights.getD activeWeights) paths

/-- One element of the `rankChanges` array of `sensitivityAnalysis`. -/
structure RankChange where
  path : ℕ
  baseRank : ℕ
  variedRank : ℕ
  change : ℤ
deriving DecidableEq, Inhabited

/-- One element of the `analyses` array of `sensitivityAnalysis`. -/
structure VariationAnalysis where
  weights : Weights
  ranking : List RankedPath
  rankChanges : List RankChange
  maxChange : ℚ
deriving DecidableEq, Inhabited

/-- Result record of `sensitivityAnalysis`. -/
structure SensitivityResult where
  baseRanking : List RankedPath
  analyses : List VariationAnalysis
  stability : ℚ
deriving DecidableEq, Inhabited

/-- `PathRanker._calculateStability`. -/
def calculateStability (analyses : List VariationAnalysis) : ℚ :=
  if analyses.length = 0 then 1
  else
    let avgMaxChange := (analyses.map (fun a => a.maxChange)).sum / (analyses.length : ℚ)
    max 0 (1 - avgMaxChange / 10)

/-- The body of the `baseRanking.map(...)` callback of
`sensitivityAnalysis`.  `variedRanking.find(v => v.path ===
basePath.path)` yields `undefined` when no entry matches, and the
subsequent `.rank` access would throw; the junk value `0` stands for that
read, unreachable when the input `path` identities are pairwise
distinct. -/
def rankChangeOf (variedRanking : List RankedPath) (basePath : RankedPath) :
    RankChange :=
  let variedRank :=
    ((variedRanking.find? fun v => v.path == basePath.path).map
      (fun v => v.rank)).getD 0
  { path := basePath.path
    baseRank := basePath.rank
    variedRank := variedRank
    change := (variedRank : ℤ) - (basePath.rank : ℤ) }

/-- The body of the `weightVariations.map(...)` callback of
`sensitivityAnalysis`: re-rank with the alternative weight set, record
per-path rank changes and the variant's largest absolute change. -/
def analysisOf (sqrt : ℚ → ℚ) (activeWeights : Weights) (paths : List PathData)
    (baseRanking : List RankedPath) (w : Weights) : VariationAnalysis :=
  let variedRanking := rank sqrt activeWeights paths (some w)
  let rankChanges := baseRanking.map (rankChangeOf variedRanking)
  { weights := w
    ranking := variedRanking
    rankChanges := rankChanges
    maxChange := listMax (rankChanges.map fun c => (c.change.natAbs : ℚ)) }

/-- `PathRanker.sensitivityAnalysis`. -/
def sensitivityAnalysis (sqrt : ℚ → ℚ) (activeWeights : Weights)
    (paths : List PathData) (weightVariations : List Weights) : SensitivityResult :=
  let baseRanking := rank sqrt activeWeights paths none
  let analyses :=
    weightVariations.map (analysisOf sqrt activeWeights paths baseRanking)
  { baseRanking := baseRanking
    analyses := analyses
    stability := calculateStability analyses }

/-! Concrete example data used by witnesses and counterexamples. -/

/-- A trivial architecture: no layer dependencies, no constraints. -/
def archTrivial : Architecture :=
  { layerDependencies := fun _ => [], constraints := { maxTokens := none, minConfidence := none } }

/-- The default planner options (`interpolationSteps 5`,
`collisionCheckEnabled true`, `maxTransitionCost 500`). -/
def opts5 : PlannerOptions :=
  { interpolationSteps := 5, collisionCheckEnabled := true, maxTransitionCost := 500 }

/-- A small valid configuration with integer scalar fields. -/
def cfgInt : Config :=
  { layerSequence := ["Input", "Output"], confidenceThreshold := 1 / 2
    parallelizationFactor := 1, processingMode := "single", tokenCost := 2 }

/-- A configuration with fractional `tokenCost`. -/
def cfgHalfToken : Config :=
  { layerSequence := ["Input", "Output"], confidenceThreshold := 1 / 2
    parallelizationFactor := 1, processingMode := "single", tokenCost := 1 / 2 }

/-- A configuration whose layer sequence is missing `Output`. -/
def cfgNoOutput : Config :=
  { layerSequence := ["Input"], confidenceThreshold := 1 / 2
    parallelizationFactor := 1, processingMode := "single", tokenCost := 0 }

/-- Path-set constructor used in concrete ranking examples. -/
def mkPath (i : ℕ) (p c l e : ℚ) : PathData :=
  { path := i
    metrics := { pathProbability := p, totalCost := c, pathLength := l, entropy := e } }

/-- The concrete two-path set in which both paths have `totalCost = 0`. -/
def pathsZeroCost : List PathData :=
  [mkPath 0 (9 / 10) 0 2 1, mkPath 1 (1 / 2) 0 3 2]

/-- Decidable test that a ranked entry's composite score equals `q`
(used to state sort stability: per score class, output order equals
input order). -/
def scoreEq (q : ℚ) (r : RankedPath) : Bool :=
  decide (r.compositeScore = q)

/-- Sum of the transition costs of the first `k` consecutive pairs — the
cost accumulated by `plan`'s loop after processing `k` pairs. -/
def costTake (pairs : List (Config × Config)) (k : ℕ) : ℚ :=
  ((pairs.take k).map fun p => computeTransitionCost p.1 p.2).sum

/-- Product of the transition probabilities of the first `k` consecutive
pairs — the probability accumulated by `plan`'s loop after processing
`k` pairs. -/
def probTake (exp : ℚ → ℚ) (arch : Architecture)
    (pairs : List (Config × Config)) (k : ℕ) : ℚ :=
  ((pairs.take k).map fun p => computeTransitionProbability exp p.1 p.2 arch).prod

/-! Helper lemmas. -/

theorem includes_eq_true {α : Type} [DecidableEq α] {l : List α} {x : α} :
    includes l x = true ↔ x ∈ l := by
  simp [includes]

theorem nodup_append_singleton {α : Type} (l : List α) (x : α)
    (hl : l.Nodup) (hx : x ∉ l) : (l ++ [x]).Nodup := by
  refine List.Nodup.append hl (List.nodup_singleton x) ?_
  intro a ha hax
  rw [List.mem_singleton] at hax
  exact hx (hax ▸ ha)

theorem mem_pushUnique_self (l : List String) (x : String) :
    x ∈ pushUnique l x := by
  unfold pushUnique
  by_cases h : includes l x = true
  · simpa [h] using includes_eq_true.mp h
  · simp [h]

theorem mem_pushUnique_of_mem (l : List String) (x y : String) (hy : y ∈ l) :
    y ∈ pushUnique l x := by
  unfold pushUnique
  by_cases h : includes l x = true <;> simp [h, hy]

theorem nodup_pushUnique (l : List String) (x : String) (hl : l.Nodup) :
    (pushUnique l x).Nodup := by
  unfold pushUnique
  by_cases h : includes l x = true
  · simpa [h] using hl
  · have hx : x ∉ l := fun hmem => h (includes_eq_true.mpr hmem)
    simp only [h]
    exact nodup_append_singleton l x hl hx

theorem nodup_hybridStep (rand : ℕ → Bool) (seqA seqB : List String)
    (acc : List String) (i : ℕ) (hacc : acc.Nodup) :
    (hybridStep rand seqA seqB acc i).Nodup := by
  unfold hybridStep
  split
  · exact nodup_pushUnique _ _ hacc
  · split
    · exact nodup_pushUnique _ _ hacc
    · exact hacc

theorem nodup_foldl_hybridStep (rand : ℕ → Bool) (seqA seqB : List String) :
    ∀ (idxs : List ℕ) (acc : List String), acc.Nodup →
      (idxs.foldl (hybridStep rand seqA seqB) acc).Nodup := by
  intro idxs
  induction idxs with
  | nil => intro acc h; exact h
  | cons i rest ih =>
    intro acc h
    exact ih _ (nodup_hybridStep rand seqA seqB acc i h)

/-- C10: for every pair of layer sequences, every strictly intermediate
interpolation parameter `0 < t < 1` and every outcome of the random
choices, the blended layer sequence contains `Input` and `Output` and has
no duplicate tokens; consequently its validity against any architecture
reduces to the dependency check alone (the `Input`/`Output` test cannot
fail). -/
theorem interpolateSequence_mid_input_output_nodup (rand : ℕ → Bool)
    (seqA seqB : List String) (t : ℚ) (h0 : 0 < t) (h1 : t < 1) :
    "Input" ∈ interpolateSequence rand seqA seqB t ∧
    "Output" ∈ interpolateSequence rand seqA seqB t ∧
    (interpolateSequence rand seqA seqB t).Nodup ∧
    ∀ arch : Architecture,
      isLayerSequenceValid (interpolateSequence rand seqA seqB t) arch =
        depsSatisfied arch (interpolateSequence rand seqA seqB t) := by
  have ht0 : t ≠ 0 := ne_of_gt h0
  have ht1 : t ≠ 1 := ne_of_lt h1
  unfold interpolateSequence
  simp only [ht0, ht1, if_false]
  set hybrid := (List.range (max seqA.length seqB.length)).foldl
    (hybridStep rand seqA seqB) [] with hhybrid
  have hnodup : hybrid.Nodup :=
    nodup_foldl_hybridStep rand seqA seqB _ [] List.nodup_nil
  set h1l := if includes hybrid "Input" then hybrid else "Input" :: hybrid with hh1
  have hin1 : "Input" ∈ h1l := by
    rw [hh1]
    by_cases hc : includes hybrid "Input" = true
    · simpa [hc] using includes_eq_true.mp hc
    · simp [hc]
  have hnodup1 : h1l.Nodup := by
    rw [hh1]
    by_cases hc : includes hybrid "Input" = true
    · simpa [hc] using hnodup
    · have : "Input" ∉ hybrid := fun hm => hc (includes_eq_true.mpr hm)
      simp [hc, hnodup, this]
  by_cases hc2 : includes h1l "Output" = true
  · refine ⟨by simpa [hc2] using hin1, by simpa [hc2] using includes_eq_true.mp hc2,
      by simpa [hc2] using hnodup1, ?_⟩
    intro arch
    simp only [hc2, if_true]
    have hio : hasInputAndOutput h1l = true := by
      unfold hasInputAndOutput
      rw [includes_eq_true.mpr hin1, hc2]
      rfl
    simp [isLayerSequenceValid, hio]
  · have hout : "Output" ∉ h1l := fun hm => hc2 (includes_eq_true.mpr hm)
    refine ⟨by simp [hc2, hin1], by simp [hc2], ?_, ?_⟩
    · simp only [hc2, if_false]
      exact nodup_append_singleton h1l "Output" hnodup1 hout
    · intro arch
      simp only [hc2, if_false]
      have hio : hasInputAndOutput (h1l ++ ["Output"]) = true := by
        unfold hasInputAndOutput
        rw [includes_eq_true.mpr (by simp [hin1]), includes_eq_true.mpr (by simp)]
        rfl
      simp [isLayerSequenceValid, hio]

/-- C10 witness: a concrete blend at `t = 2/5`. -/
theorem interpolateSequence_mid_witness :
    "Input" ∈ interpolateSequence (fun _ => true) ["Input", "A", "Output"]
      ["Input", "B", "Output"] (2 / 5) ∧
    "Output" ∈ interpolateSequence (fun _ => true) ["Input", "A", "Output"]
      ["Input", "B", "Output"] (2 / 5) ∧
    (interpolateSequence (fun _ => true) ["Input", "A", "Output"]
      ["Input", "B", "Output"] (2 / 5)).Nodup := by
  have h := interpolateSequence_mid_input_output_nodup (fun _ => true)
    ["Input", "A", "Output"] ["Input", "B", "Output"] (2 / 5)
    (by norm_num) (by norm_num)
  exact ⟨h.1, h.2.1, h.2.2.1⟩

/-- C7: an absent `maxTokens` (resp. `minConfidence`) constraint never
fails validity on the token-cost (resp. confidence) dimension — validity
is then fully independent of `tokenCost` (resp. `confidenceThreshold`),
so absence behaves as no constraint at all, never as a bound of zero. -/
theorem absent_constraints_unconstrained (c : Config) (arch : Architecture) :
    (arch.constraints.maxTokens = none →
      exceedsMaxTokens c arch = false ∧
      ∀ x : ℚ, isValidConfig { c with tokenCost := x } arch = isValidConfig c arch) ∧
    (arch.constraints.minConfidence = none →
      belowMinConfidence c arch = false ∧
      ∀ q : ℚ, isValidConfig { c with confidenceThreshold := q } arch
        = isValidConfig c arch) := by
  constructor
  · intro h
    refine ⟨by simp [exceedsMaxTokens, h], fun x => ?_⟩
    simp [isValidConfig, exceedsMaxTokens, belowMinConfidence, h]
  · intro h
    refine ⟨by simp [belowMinConfidence, h], fun q => ?_⟩
    simp [isValidConfig, exceedsMaxTokens, belowMinConfidence, h]

/-- C7 witness: with both constraint fields absent, a huge `tokenCost`
or a tiny `confidenceThreshold` changes nothing about validity. -/
theorem absent_constraints_unconstrained_witness :
    exceedsMaxTokens cfgInt archTrivial = false ∧
    belowMinConfidence cfgInt archTrivial = false ∧
    isValidConfig { cfgInt with tokenCost := 999999 } archTrivial
      = isValidConfig cfgInt archTrivial ∧
    isValidConfig { cfgInt with confidenceThreshold := -999999 } archTrivial
      = isValidConfig cfgInt archTrivial := by
  obtain ⟨h1, h2⟩ := absent_constraints_unconstrained cfgInt archTrivial
  exact ⟨(h1 rfl).1, (h2 rfl).1, (h1 rfl).2 999999, (h2 rfl).2 (-999999)⟩

theorem computeTransitionProbability_mem (exp : ℚ → ℚ) (wp1 wp2 : Config)
    (arch : Architecture) :
    0 ≤ computeTransitionProbability exp wp1 wp2 arch ∧
      computeTransitionProbability exp wp1 wp2 arch ≤ 1 := by
  unfold computeTransitionProbability
  constructor
  · exact le_min (by norm_num) (le_max_left 0 _)
  · exact min_le_left 1 _

theorem planLoop_prob_mem (opts : PlannerOptions) (arch : Architecture) (exp : ℚ → ℚ) :
    ∀ (pairs : List (Config × Config)) (cost prob : ℚ), 0 ≤ prob → prob ≤ 1 →
      0 ≤ (planLoop opts arch exp pairs cost prob).2.2 ∧
        (planLoop opts arch exp pairs cost prob).2.2 ≤ 1 := by
  intro pairs
  induction pairs with
  | nil => intro cost prob h0 h1; exact ⟨h0, h1⟩
  | cons p rest ih =>
    intro cost prob h0 h1
    obtain ⟨wp1, wp2⟩ := p
    have hp := computeTransitionProbability_mem exp wp1 wp2 arch
    have h0' : 0 ≤ prob * computeTransitionProbability exp wp1 wp2 arch :=
      mul_nonneg h0 hp.1
    have h1' : prob * computeTransitionProbability exp wp1 wp2 arch ≤ 1 :=
      mul_le_one₀ h1 hp.1 hp.2
    have heq : planLoop opts arch exp ((wp1, wp2) :: rest) cost prob =
        if opts.collisionCheckEnabled && !isValidConfig wp1 arch then
          (false, cost, prob)
        else if opts.maxTransitionCost < cost + computeTransitionCost wp1 wp2 then
          (false, cost + computeTransitionCost wp1 wp2,
            prob * computeTransitionProbability exp wp1 wp2 arch)
        else planLoop opts arch exp rest (cost + computeTransitionCost wp1 wp2)
          (prob * computeTransitionProbability exp wp1 wp2 arch) := rfl
    rw [heq]
    by_cases hb : (opts.collisionCheckEnabled && !isValidConfig wp1 arch) = true
    · rw [if_pos hb]
      exact ⟨h0, h1⟩
    · rw [if_neg hb]
      by_cases hc : opts.maxTransitionCost < cost + computeTransitionCost wp1 wp2
      · rw [if_pos hc]
        exact ⟨h0', h1'⟩
      · rw [if_neg hc]
        exact ih _ _ h0' h1'

theorem jsOr_zero_default (x : ℚ) : jsOr x 0 = x := by
  unfold jsOr
  split <;> simp_all

theorem jsOr_of_ne (x d : ℚ) (hx : x ≠ 0) : jsOr x d = x := by
  simp [jsOr, hx]

theorem jsRound_intCast (z : ℤ) : jsRound (z : ℚ) = z := by
  unfold jsRound
  rw [Int.floor_int_add]
  norm_num

theorem lerp_self (a t : ℚ) : lerp a a t = a := by
  unfold lerp
  ring

theorem foldl_min_all_eq (c : ℚ) : ∀ (l : List ℚ), (∀ x ∈ l, x = c) →
    l.foldl min c = c := by
  intro l
  induction l with
  | nil => intro _; rfl
  | cons y ys ih =>
    intro h
    have hy : y = c := h y (List.mem_cons_self y ys)
    simp only [List.foldl_cons, hy, min_self]
    exact ih fun x hx => h x (List.mem_cons_of_mem _ hx)

theorem foldl_max_all_eq (c : ℚ) : ∀ (l : List ℚ), (∀ x ∈ l, x = c) →
    l.foldl max c = c := by
  intro l
  induction l with
  | nil => intro _; rfl
  | cons y ys ih =>
    intro h
    have hy : y = c := h y (List.mem_cons_self y ys)
    simp only [List.foldl_cons, hy, max_self]
    exact ih fun x hx => h x (List.mem_cons_of_mem _ hx)

theorem listMin_all_eq (c : ℚ) (l : List ℚ) (hne : l ≠ [])
    (h : ∀ x ∈ l, x = c) : listMin l = c := by
  match l with
  | [] => exact absurd rfl hne
  | x :: xs =>
    have hx : x = c := h x (List.mem_cons_self x xs)
    show xs.foldl min x = c
    rw [hx]
    exact foldl_min_all_eq c xs fun y hy => h y (List.mem_cons_of_mem _ hy)

theorem listMax_all_eq (c : ℚ) (l : List ℚ) (hne : l ≠ [])
    (h : ∀ x ∈ l, x = c) : listMax l = c := by
  match l with
  | [] => exact absurd rfl hne
  | x :: xs =>
    have hx : x = c := h x (List.mem_cons_self x xs)
    show xs.foldl max x = c
    rw [hx]
    exact foldl_max_all_eq c xs fun y hy => h y (List.mem_cons_of_mem _ hy)

theorem insertDesc_perm (x : RankedPath) (l : List RankedPath) :
    List.Perm (insertDesc x l) (x :: l) := by
  induction l with
  | nil => exact List.Perm.refl _
  | cons z zs ih =>
    unfold insertDesc
    by_cases h : z.compositeScore < x.compositeScore
    · rw [if_pos h]
    · rw [if_neg h]
      exact (ih.cons z).trans (List.Perm.swap x z zs)

theorem mem_insertDesc {x y : RankedPath} {l : List RankedPath} :
    y ∈ insertDesc x l ↔ y = x ∨ y ∈ l := by
  rw [(insertDesc_perm x l).mem_iff]
  simp

theorem foldl_insertDesc_perm :
    ∀ (l acc : List RankedPath),
      List.Perm (l.foldl (fun acc x => insertDesc x acc) acc) (acc ++ l) := by
  intro l
  induction l with
  | nil => intro acc; simp
  | cons x xs ih =>
    intro acc
    have h1 : List.Perm (xs.foldl (fun acc x => insertDesc x acc) (insertDesc x acc))
        (insertDesc x acc ++ xs) := ih _
    have h2 : List.Perm (insertDesc x acc ++ xs) ((x :: acc) ++ xs) :=
      (insertDesc_perm x acc).append_right xs
    have h3 : List.Perm ((x :: acc) ++ xs) (acc ++ x :: xs) := List.perm_middle.symm
    exact (h1.trans h2).trans h3

theorem sortDesc_perm (l : List RankedPath) : List.Perm (sortDesc l) l := by
  simpa using foldl_insertDesc_perm l []

theorem mem_sortDesc {y : RankedPath} {l : List RankedPath} :
    y ∈ sortDesc l ↔ y ∈ l :=
  (sortDesc_perm l).mem_iff

theorem mem_assignRanks :
    ∀ (i : ℕ) (l : List RankedPath) (y : RankedPath), y ∈ assignRanks i l →
      ∃ x ∈ l, ∃ j : ℕ, y = { x with rank := j } := by
  intro i l
  induction l generalizing i with
  | nil => intro y hy; simp [assignRanks] at hy
  | cons x xs ih =>
    intro y hy
    rcases List.mem_cons.mp hy with h | h
    · exact ⟨x, List.mem_cons_self x xs, i, h⟩
    · obtain ⟨z, hz, j, hj⟩ := ih (i + 1) y h
      exact ⟨z, List.mem_cons_of_mem _ hz, j, hj⟩

theorem length_sortDesc (l : List RankedPath) : (sortDesc l).length = l.length :=
  (sortDesc_perm l).length_eq

theorem length_assignRanks :
    ∀ (i : ℕ) (l : List RankedPath), (assignRanks i l).length = l.length := by
  intro i l
  induction l generalizing i with
  | nil => rfl
  | cons x xs ih => simp [assignRanks, ih]

theorem length_rankWith (sqrt : ℚ → ℚ) (w : Weights) (paths : List PathData) :
    (rankWith sqrt w paths).length = paths.length := by
  unfold rankWith
  rw [length_assignRanks, length_sortDesc, List.length_map]

theorem rankWith_ne_nil (sqrt : ℚ → ℚ) (w : Weights) (paths : List PathData)
    (h : paths ≠ []) : rankWith sqrt w paths ≠ [] := by
  intro hnil
  apply h
  have := length_rankWith sqrt w paths
  rw [hnil] at this
  exact List.length_eq_zero.mp this.symm


/-- C6: the per-transition probability is always clamped to `[0,1]`, and
`plan`'s returned probability — a running product started at `1.0` over
clamped factors — also lies in `[0,1]`. -/
theorem probability_clamped :
    (∀ (exp : ℚ → ℚ) (wp1 wp2 : Config) (arch : Architecture),
      0 ≤ computeTransitionProbability exp wp1 wp2 arch ∧
        computeTransitionProbability exp wp1 wp2 arch ≤ 1) ∧
    (∀ (opts : PlannerOptions) (exp : ℚ → ℚ) (rand : ℕ → ℕ → Bool)
      (configA configB : Config) (arch : Architecture),
      0 ≤ (plan opts exp rand configA configB arch).probability ∧
        (plan opts exp rand configA configB arch).probability ≤ 1) := by
  refine ⟨computeTransitionProbability_mem, ?_⟩
  intro opts exp rand configA configB arch
  unfold plan
  exact planLoop_prob_mem opts arch exp _ 0 1 (by norm_num) le_rfl

/-- C3 counterexample: interpolating the configuration with
`tokenCost = 1/2` against itself yields waypoints whose `tokenCost` is
`Math.round(1/2) = 1`, not `1/2` — the code rounds `tokenCost` too, so
neither "every scalar field equals A's" nor "only
`parallelizationFactor` is rounded" holds as stated. -/
theorem interpolate_self_scalar_counterexample :
    ¬ ∀ wp ∈ interpolate opts5 (fun _ _ => true) cfgHalfToken cfgHalfToken,
        wp.tokenCost = cfgHalfToken.tokenCost := by
  intro h
  have h0 : (0 : ℕ) ∈ List.range (opts5.interpolationSteps + 1) := by decide
  have hval := h _ (List.mem_map_of_mem _ h0)
  norm_num [cfgHalfToken, opts5, jsOr, lerp, jsRound] at hval

/-- C3 amended: interpolating `A` against itself with
`interpolationSteps = 5` yields exactly 6 waypoints whose scalar fields
all equal `A`'s, provided `A.tokenCost` is an integer
(`parallelizationFactor` is an integer by the data model); in general
`confidenceThreshold` is linearly interpolated while both
`parallelizationFactor` and `tokenCost` are rounded to the nearest
integer after linear interpolation. -/
theorem interpolate_self_scalars (opts : PlannerOptions) (rand : ℕ → ℕ → Bool) :
    (∀ A : Config, opts.interpolationSteps = 5 →
      (∃ z : ℤ, A.tokenCost = (z : ℚ)) →
      (interpolate opts rand A A).length = 6 ∧
      ∀ wp ∈ interpolate opts rand A A,
        wp.confidenceThreshold = A.confidenceThreshold ∧
        wp.parallelizationFactor = A.parallelizationFactor ∧
        wp.tokenCost = A.tokenCost) ∧
    (∀ (A B : Config) (i : ℕ), i < opts.interpolationSteps + 1 →
      ((interpolate opts rand A B).getD i default).confidenceThreshold =
        lerp A.confidenceThreshold B.confidenceThreshold
          ((i : ℚ) / (opts.interpolationSteps : ℚ)) ∧
      ((interpolate opts rand A B).getD i default).parallelizationFactor =
        jsRound (lerp (A.parallelizationFactor : ℚ) (B.parallelizationFactor : ℚ)
          ((i : ℚ) / (opts.interpolationSteps : ℚ))) ∧
      ((interpolate opts rand A B).getD i default).tokenCost =
        (jsRound (lerp (jsOr A.tokenCost 0) (jsOr B.tokenCost 0)
          ((i : ℚ) / (opts.interpolationSteps : ℚ))) : ℚ)) := by
  constructor
  · intro A hsteps htok
    constructor
    · simp [interpolate, hsteps]
    · intro wp hwp
      obtain ⟨i, _, hwpdef⟩ := List.mem_map.mp hwp
      obtain ⟨z, hz⟩ := htok
      subst hwpdef
      refine ⟨by simp [lerp_self], by simp [lerp_self, jsRound_intCast], ?_⟩
      show (jsRound (lerp (jsOr A.tokenCost 0) (jsOr A.tokenCost 0) _) : ℚ)
        = A.tokenCost
      rw [jsOr_zero_default, lerp_self, hz, jsRound_intCast]
  · intro A B i hi
    have hlen : i < (interpolate opts rand A B).length := by
      simpa [interpolate] using hi
    rw [List.getD_eq_getElem _ _ hlen]
    simp [interpolate]

/-- C3 witness: the amended statement at a concrete integer-valued
configuration and at a concrete interpolation index. -/
theorem interpolate_self_scalars_witness :
    ((interpolate opts5 (fun _ _ => true) cfgInt cfgInt).length = 6 ∧
      ∀ wp ∈ interpolate opts5 (fun _ _ => true) cfgInt cfgInt,
        wp.confidenceThreshold = cfgInt.confidenceThreshold ∧
        wp.parallelizationFactor = cfgInt.parallelizationFactor ∧
        wp.tokenCost = cfgInt.tokenCost) ∧
    ((interpolate opts5 (fun _ _ => true) cfgInt cfgHalfToken).getD 1
        default).confidenceThreshold =
      lerp cfgInt.confidenceThreshold cfgHalfToken.confidenceThreshold
        ((1 : ℚ) / 5) :=
  ⟨(interpolate_self_scalars opts5 (fun _ _ => true)).1 cfgInt rfl
      ⟨2, by norm_num [cfgInt]⟩,
    ((interpolate_self_scalars opts5 (fun _ _ => true)).2 cfgInt cfgHalfToken 1
      (by norm_num [opts5])).1⟩

/-- C4 counterexample: when every path's `totalCost` is `0`, the falsy
`||` defaults make the observed cost range `[0, 1000]` instead of a
degenerate one, so the normalized cost metric is `1 - 0 = 1`, not
`0.5`. -/
theorem assignRanks_mem_of_mem :
    ∀ (i : ℕ) (l : List RankedPath) (x : RankedPath), x ∈ l →
      ∃ j : ℕ, { x with rank := j } ∈ assignRanks i l := by
  intro i l
  induction l generalizing i with
  | nil => intro x hx; cases hx
  | cons y ys ih =>
    intro x hx
    rcases List.mem_cons.mp hx with h | h
    · subst h; exact ⟨i, List.mem_cons_self _ _⟩
    · obtain ⟨j, hj⟩ := ih (i + 1) x h
      exact ⟨j, List.mem_cons_of_mem _ hj⟩

theorem rank_zero_cost_counterexample :
    ¬ ∀ r ∈ rank (fun _ => 0) defaultWeights pathsZeroCost none,
        r.normalized.cost = 1 / 2 := by
  intro h
  have hb : buildRankedItem (fun _ => 0) defaultWeights pathsZeroCost
      (mkPath 0 (9 / 10) 0 2 1) ∈
      sortDesc (pathsZeroCost.map
        (buildRankedItem (fun _ => 0) defaultWeights pathsZeroCost)) :=
    mem_sortDesc.mpr (List.mem_map_of_mem _ (by simp [pathsZeroCost]))
  obtain ⟨j, hj⟩ := assignRanks_mem_of_mem 1 _ _ hb
  have hval := h _ hj
  norm_num [buildRankedItem, normalizeMetrics, normalize, jsOr,
    costRangeMin, costRangeMax, listMin, listMax, pathsZeroCost, mkPath] at hval

/-- C4 amended: when `totalCost` has the same nonzero raw value across
all paths, `rank` assigns every path a normalized cost metric of exactly
`0.5` (for the shared value `0`, the `|| 0` / `|| 1000` defaults give
`1` instead). -/
theorem rank_uniform_nonzero_cost_half (sqrt : ℚ → ℚ) (activeW : Weights)
    (optW : Option Weights) (paths : List PathData) (c : ℚ) (hc : c ≠ 0)
    (hall : ∀ p ∈ paths, p.metrics.totalCost = c) :
    ∀ r ∈ rank sqrt activeW paths optW, r.normalized.cost = 1 / 2 := by
  intro r hr
  obtain ⟨x, hx, j, hj⟩ := mem_assignRanks 1 _ r hr
  obtain ⟨p, hp, hbuild⟩ := List.mem_map.mp (mem_sortDesc.mp hx)
  have hne : paths ≠ [] := List.ne_nil_of_mem hp
  have hvals0 : ∀ v ∈ paths.map fun p => jsOr p.metrics.totalCost 0, v = c := by
    intro v hv
    obtain ⟨q, hq, hqv⟩ := List.mem_map.mp hv
    rw [← hqv, hall q hq, jsOr_of_ne c 0 hc]
  have hvals1000 : ∀ v ∈ paths.map fun p => jsOr p.metrics.totalCost 1000, v = c := by
    intro v hv
    obtain ⟨q, hq, hqv⟩ := List.mem_map.mp hv
    rw [← hqv, hall q hq, jsOr_of_ne c 1000 hc]
  have hmin : costRangeMin paths = c :=
    listMin_all_eq c _ (by simpa using hne) hvals0
  have hmax : costRangeMax paths = c :=
    listMax_all_eq c _ (by simpa using hne) hvals1000
  have hrx : r.normalized = x.normalized := by rw [hj]
  rw [hrx, ← hbuild]
  show (normalizeMetrics p.metrics paths).cost = 1 / 2
  unfold normalizeMetrics
  simp only [hmin, hmax]
  rw [hall p hp, jsOr_of_ne c 0 hc]
  unfold normalize
  norm_num

/-- C4 witness: for a concrete two-path set with shared nonzero
`totalCost = 7`, the top-ranked entry's normalized cost metric is
`0.5`. -/
theorem rank_uniform_nonzero_cost_half_witness :
    ((rank (fun _ => 0) defaultWeights
      [mkPath 0 (9 / 10) 7 2 1, mkPath 1 (1 / 2) 7 3 2] none).headD
        default).normalized.cost = 1 / 2 := by
  have hne : rank (fun _ => 0) defaultWeights
      [mkPath 0 (9 / 10) 7 2 1, mkPath 1 (1 / 2) 7 3 2] none ≠ [] := by
    show rankWith (fun _ => 0) defaultWeights
      [mkPath 0 (9 / 10) 7 2 1, mkPath 1 (1 / 2) 7 3 2] ≠ []
    exact rankWith_ne_nil _ _ _ (by simp)
  obtain ⟨x, xs, hx⟩ := List.exists_cons_of_ne_nil hne
  rw [hx]
  refine rank_uniform_nonzero_cost_half (fun _ => 0) defaultWeights none
    [mkPath 0 (9 / 10) 7 2 1, mkPath 1 (1 / 2) 7 3 2] 7 (by norm_num)
    (by simp [mkPath]) x ?_
  rw [hx]
  exact List.mem_cons_self x xs

theorem interpolate_length (opts : PlannerOptions) (rand : ℕ → ℕ → Bool)
    (configA configB : Config) :
    (interpolate opts rand configA configB).length = opts.interpolationSteps + 1 := by
  simp [interpolate]

theorem costTake_zero (pairs : List (Config × Config)) : costTake pairs 0 = 0 := by
  simp [costTake]

theorem probTake_zero (exp : ℚ → ℚ) (arch : Architecture)
    (pairs : List (Config × Config)) : probTake exp arch pairs 0 = 1 := by
  simp [probTake]

theorem costTake_cons_succ (p : Config × Config) (rest : List (Config × Config))
    (k : ℕ) :
    costTake (p :: rest) (k + 1) = computeTransitionCost p.1 p.2 + costTake rest k := by
  simp [costTake]

theorem probTake_cons_succ (exp : ℚ → ℚ) (arch : Architecture)
    (p : Config × Config) (rest : List (Config × Config)) (k : ℕ) :
    probTake exp arch (p :: rest) (k + 1) =
      computeTransitionProbability exp p.1 p.2 arch * probTake exp arch rest k := by
  simp [probTake]

theorem planLoop_cons_eq (opts : PlannerOptions) (arch : Architecture) (exp : ℚ → ℚ)
    (wp1 wp2 : Config) (rest : List (Config × Config)) (cost prob : ℚ) :
    planLoop opts arch exp ((wp1, wp2) :: rest) cost prob =
      if opts.collisionCheckEnabled && !isValidConfig wp1 arch then
        (false, cost, prob)
      else if opts.maxTransitionCost < cost + computeTransitionCost wp1 wp2 then
        (false, cost + computeTransitionCost wp1 wp2,
          prob * computeTransitionProbability exp wp1 wp2 arch)
      else planLoop opts arch exp rest (cost + computeTransitionCost wp1 wp2)
        (prob * computeTransitionProbability exp wp1 wp2 arch) := rfl

theorem planLoop_head_invalid (opts : PlannerOptions) (arch : Architecture)
    (exp : ℚ → ℚ) (hcc : opts.collisionCheckEnabled = true) (wp1 wp2 : Config)
    (rest : List (Config × Config)) (hv : isValidConfig wp1 arch = false)
    (cost prob : ℚ) :
    planLoop opts arch exp ((wp1, wp2) :: rest) cost prob = (false, cost, prob) := by
  rw [planLoop_cons_eq, if_pos]
  rw [hcc, hv]
  rfl

theorem planLoop_break_of_bad (opts : PlannerOptions) (arch : Architecture)
    (exp : ℚ → ℚ) (hcc : opts.collisionCheckEnabled = true) :
    ∀ (pairs : List (Config × Config)) (cost prob : ℚ),
      ((∃ p ∈ pairs, isValidConfig p.1 arch = false) ∨
        (∃ k, k < pairs.length ∧
          opts.maxTransitionCost < cost + costTake pairs (k + 1))) →
      (planLoop opts arch exp pairs cost prob).1 = false := by
  intro pairs
  induction pairs with
  | nil =>
    intro cost prob h
    rcases h with ⟨p, hp, _⟩ | ⟨k, hk, _⟩
    · cases hp
    · simp at hk
  | cons p rest ih =>
    intro cost prob h
    obtain ⟨wp1, wp2⟩ := p
    rw [planLoop_cons_eq]
    by_cases hb : (opts.collisionCheckEnabled && !isValidConfig wp1 arch) = true
    · rw [if_pos hb]
    · rw [if_neg hb]
      have hv : isValidConfig wp1 arch = true := by
        revert hb
        rw [hcc]
        cases isValidConfig wp1 arch <;> simp
      by_cases hc : opts.maxTransitionCost < cost + computeTransitionCost wp1 wp2
      · rw [if_pos hc]
      · rw [if_neg hc]
        apply ih
        rcases h with ⟨q, hq, hqv⟩ | ⟨k, hk, hkc⟩
        · rcases List.mem_cons.mp hq with rfl | hq'
          · rw [hv] at hqv; cases hqv
          · exact Or.inl ⟨q, hq', hqv⟩
        · match k with
          | 0 =>
            exfalso
            apply hc
            have : costTake ((wp1, wp2) :: rest) 1 = computeTransitionCost wp1 wp2 := by
              rw [costTake_cons_succ, costTake_zero, add_zero]
            rw [this] at hkc
            exact hkc
          | k + 1 =>
            refine Or.inr ⟨k, by simpa using hk, ?_⟩
            rw [costTake_cons_succ] at hkc
            rw [← add_assoc] at hkc
            exact hkc

theorem consecutivePairs_cons₂ (a b : Config) (l : List Config) :
    consecutivePairs (a :: b :: l) = (a, b) :: consecutivePairs (b :: l) := rfl

theorem getD_pair_mem_consecutivePairs :
    ∀ (wps : List Config) (i : ℕ), i + 1 < wps.length →
      (wps.getD i default, wps.getD (i + 1) default) ∈ consecutivePairs wps := by
  intro wps
  induction wps with
  | nil => intro i hi; simp at hi
  | cons w rest ih =>
    intro i hi
    match rest, i with
    | [], 0 => simp at hi
    | [], j + 1 => simp at hi
    | r :: t, 0 =>
      rw [consecutivePairs_cons₂]
      exact List.mem_cons_self _ _
    | r :: t, j + 1 =>
      rw [consecutivePairs_cons₂]
      refine List.mem_cons_of_mem _ ?_
      have hj : j + 1 < (r :: t).length := by simpa using hi
      simpa using ih j hj

/-- C1: with `collisionCheckEnabled`, whenever any checked waypoint (any
index `< numSteps - 1`) fails validity, or the accumulated cost of some
prefix of consecutive pairs exceeds `maxTransitionCost`, `plan` returns
`isValid = false` with an empty `waypoints` list — no matter how many
valid waypoints preceded the failure — while `numSteps` still reports
the full interpolated count `interpolationSteps + 1`. -/
theorem plan_invalid_discards (opts : PlannerOptions) (exp : ℚ → ℚ)
    (rand : ℕ → ℕ → Bool) (configA configB : Config) (arch : Architecture)
    (hcc : opts.collisionCheckEnabled = true)
    (hbad : (∃ i, i + 1 < (interpolate opts rand configA configB).length ∧
        isValidConfig ((interpolate opts rand configA configB).getD i default)
          arch = false) ∨
      (∃ k, k < (consecutivePairs (interpolate opts rand configA configB)).length ∧
        opts.maxTransitionCost <
          costTake (consecutivePairs (interpolate opts rand configA configB))
            (k + 1))) :
    (plan opts exp rand configA configB arch).isValid = false ∧
    (plan opts exp rand configA configB arch).waypoints = [] ∧
    (plan opts exp rand configA configB arch).numSteps =
      opts.interpolationSteps + 1 := by
  have hfalse : (planLoop opts arch exp
      (consecutivePairs (interpolate opts rand configA configB)) 0 1).1 = false := by
    apply planLoop_break_of_bad opts arch exp hcc
    rcases hbad with ⟨i, hi, hinv⟩ | ⟨k, hk, hkc⟩
    · exact Or.inl ⟨_, getD_pair_mem_consecutivePairs _ i hi, hinv⟩
    · refine Or.inr ⟨k, hk, ?_⟩
      rw [zero_add]
      exact hkc
  refine ⟨?_, ?_, ?_⟩
  · simpa [plan] using hfalse
  · simp [plan, hfalse]
  · simp [plan, interpolate_length]

/-- C1 witness: a plan whose source configuration lacks the `Output`
layer is rejected with empty waypoints and full `numSteps = 6`. -/
theorem plan_invalid_discards_witness :
    (plan opts5 (fun _ => 0) (fun _ _ => true) cfgNoOutput cfgNoOutput
      archTrivial).isValid = false ∧
    (plan opts5 (fun _ => 0) (fun _ _ => true) cfgNoOutput cfgNoOutput
      archTrivial).waypoints = [] ∧
    (plan opts5 (fun _ => 0) (fun _ _ => true) cfgNoOutput cfgNoOutput
      archTrivial).numSteps = opts5.interpolationSteps + 1 := by
  apply plan_invalid_discards opts5 (fun _ => 0) (fun _ _ => true)
    cfgNoOutput cfgNoOutput archTrivial rfl
  refine Or.inl ⟨0, ?_, ?_⟩
  · rw [interpolate_length]
    norm_num [opts5]
  · have h0 : (0 : ℕ) ∈ List.range (opts5.interpolationSteps + 1) := by decide
    have hseq : ((interpolate opts5 (fun _ _ => true) cfgNoOutput
        cfgNoOutput).getD 0 default).layerSequence = ["Input"] := by
      norm_num [interpolate, opts5, cfgNoOutput, interpolateSequence]
    unfold isValidConfig isLayerSequenceValid hasInputAndOutput
    rw [hseq]
    simp [includes]

theorem planLoop_result_take (opts : PlannerOptions) (arch : Architecture)
    (exp : ℚ → ℚ) :
    ∀ (pairs : List (Config × Config)) (cost prob : ℚ),
      ∃ k ≤ pairs.length,
        (planLoop opts arch exp pairs cost prob).2.1 = cost + costTake pairs k ∧
        (planLoop opts arch exp pairs cost prob).2.2 =
          prob * probTake exp arch pairs k := by
  intro pairs
  induction pairs with
  | nil =>
    intro cost prob
    exact ⟨0, Nat.le_refl 0, by simp [planLoop, costTake_zero],
      by simp [planLoop, probTake_zero]⟩
  | cons p rest ih =>
    intro cost prob
    obtain ⟨wp1, wp2⟩ := p
    rw [planLoop_cons_eq]
    by_cases hb : (opts.collisionCheckEnabled && !isValidConfig wp1 arch) = true
    · rw [if_pos hb]
      exact ⟨0, Nat.zero_le _, by simp [costTake_zero], by simp [probTake_zero]⟩
    · rw [if_neg hb]
      by_cases hc : opts.maxTransitionCost < cost + computeTransitionCost wp1 wp2
      · rw [if_pos hc]
        refine ⟨1, by simp, ?_, ?_⟩
        · rw [costTake_cons_succ, costTake_zero, add_zero]
        · rw [probTake_cons_succ, probTake_zero, mul_one]
      · rw [if_neg hc]
        obtain ⟨k, hk, hcost, hprob⟩ := ih (cost + computeTransitionCost wp1 wp2)
          (prob * computeTransitionProbability exp wp1 wp2 arch)
        refine ⟨k + 1, by simpa using hk, ?_, ?_⟩
        · rw [hcost, costTake_cons_succ, add_assoc]
        · rw [hprob, probTake_cons_succ, mul_assoc]

/-- C9: an invalid `plan` result does not reset its accumulators: the
returned `cost` is the sum of the transition costs over exactly the
consecutive pairs processed before the loop broke, and `probability` is
the product of the transition probabilities over those same pairs; in
particular, when the very first waypoint is already invalid, the result
carries `cost = 0` and `probability = 1`, not a sentinel value. -/
theorem plan_invalid_partial_accumulators (opts : PlannerOptions) (exp : ℚ → ℚ)
    (rand : ℕ → ℕ → Bool) (configA configB : Config) (arch : Architecture)
    (hinv : (plan opts exp rand configA configB arch).isValid = false) :
    (∃ k ≤ (consecutivePairs (interpolate opts rand configA configB)).length,
      (plan opts exp rand configA configB arch).cost =
        costTake (consecutivePairs (interpolate opts rand configA configB)) k ∧
      (plan opts exp rand configA configB arch).probability =
        probTake exp arch
          (consecutivePairs (interpolate opts rand configA configB)) k) ∧
    (opts.collisionCheckEnabled = true →
      isValidConfig ((interpolate opts rand configA configB).getD 0 default)
        arch = false →
      1 < (interpolate opts rand configA configB).length →
      (plan opts exp rand configA configB arch).cost = 0 ∧
      (plan opts exp rand configA configB arch).probability = 1) := by
  constructor
  · obtain ⟨k, hk, hcost, hprob⟩ := planLoop_result_take opts arch exp
      (consecutivePairs (interpolate opts rand configA configB)) 0 1
    refine ⟨k, hk, ?_, ?_⟩
    · show (planLoop opts arch exp
        (consecutivePairs (interpolate opts rand configA configB)) 0 1).2.1 = _
      rw [hcost, zero_add]
    · show (planLoop opts arch exp
        (consecutivePairs (interpolate opts rand configA configB)) 0 1).2.2 = _
      rw [hprob, one_mul]
  · intro hcc hinv0 hlen
    obtain ⟨l, hl⟩ : ∃ l, interpolate opts rand configA configB = l := ⟨_, rfl⟩
    rw [hl] at hinv0 hlen
    match l, hlen, hinv0 with
    | w0 :: w1 :: t, _, hinv0 =>
      have hloop : planLoop opts arch exp (consecutivePairs (w0 :: w1 :: t)) 0 1
          = (false, 0, 1) := by
        rw [consecutivePairs_cons₂]
        exact planLoop_head_invalid opts arch exp hcc w0 w1 _ hinv0 0 1
      constructor
      · show (planLoop opts arch exp
          (consecutivePairs (interpolate opts rand configA configB)) 0 1).2.1 = 0
        rw [hl, hloop]
      · show (planLoop opts arch exp
          (consecutivePairs (interpolate opts rand configA configB)) 0 1).2.2 = 1
        rw [hl, hloop]

/-- C9 witness: for the plan whose first waypoint lacks `Output`, the
invalid result carries `cost = 0` and `probability = 1`. -/
theorem plan_invalid_partial_accumulators_witness :
    (plan opts5 (fun _ => 0) (fun _ _ => true) cfgNoOutput cfgNoOutput
      archTrivial).cost = 0 ∧
    (plan opts5 (fun _ => 0) (fun _ _ => true) cfgNoOutput cfgNoOutput
      archTrivial).probability = 1 := by
  have hseq : ((interpolate opts5 (fun _ _ => true) cfgNoOutput
      cfgNoOutput).getD 0 default).layerSequence = ["Input"] := by
    norm_num [interpolate, opts5, cfgNoOutput, interpolateSequence]
  have hinv0 : isValidConfig ((interpolate opts5 (fun _ _ => true) cfgNoOutput
      cfgNoOutput).getD 0 default) archTrivial = false := by
    unfold isValidConfig isLayerSequenceValid hasInputAndOutput
    rw [hseq]
    simp [includes]
  have hlen : 1 < (interpolate opts5 (fun _ _ => true) cfgNoOutput
      cfgNoOutput).length := by
    rw [interpolate_length]
    norm_num [opts5]
  have hinv : (plan opts5 (fun _ => 0) (fun _ _ => true) cfgNoOutput cfgNoOutput
      archTrivial).isValid = false := by
    obtain ⟨l, hl⟩ : ∃ l, interpolate opts5 (fun _ _ => true) cfgNoOutput
        cfgNoOutput = l := ⟨_, rfl⟩
    rw [hl] at hinv0 hlen
    match l, hlen with
    | w0 :: w1 :: t, _ =>
      have hloop : planLoop opts5 archTrivial (fun _ => 0)
          (consecutivePairs (w0 :: w1 :: t)) 0 1 = (false, 0, 1) := by
        rw [consecutivePairs_cons₂]
        exact planLoop_head_invalid opts5 archTrivial (fun _ => 0) rfl w0 w1 _
          hinv0 0 1
      show (planLoop opts5 archTrivial (fun _ => 0)
        (consecutivePairs (interpolate opts5 (fun _ _ => true) cfgNoOutput
          cfgNoOutput)) 0 1).1 = false
      rw [hl, hloop]
  exact (plan_invalid_partial_accumulators opts5 (fun _ => 0) (fun _ _ => true)
    cfgNoOutput cfgNoOutput archTrivial hinv).2 rfl hinv0 hlen

/-- C5 (divergence witness): in the source, `optimizePath` invokes the
`async` method `this.plan` without `await`, so the scan's acceptance
test reads `isValid`/`cost` off a `Promise` object — both `undefined` —
and never fires.  Concretely: the direct (awaited) plan from the first
to the third waypoint below is valid and well within
`maxTransitionCost`, so the spec's shortcutting would skip the middle
waypoint, yet `optimizePath` returns the path unchanged. -/
theorem optimizePath_shortcut_never_taken :
    (plan opts5 (fun _ => 0) (fun _ _ => true) cfgInt cfgInt
      archTrivial).isValid = true ∧
    (plan opts5 (fun _ => 0) (fun _ _ => true) cfgInt cfgInt archTrivial).cost <
      opts5.maxTransitionCost ∧
    optimizePath [cfgInt, cfgInt, cfgInt] = [cfgInt, cfgInt, cfgInt] := by
  have hvalid : isValidConfig cfgInt archTrivial = true := by decide
  have hcost : computeTransitionCost cfgInt cfgInt = 30 := by
    norm_num [computeTransitionCost, cfgInt]
  have hctp : computeTransitionProbability (fun _ => 0) cfgInt cfgInt
      archTrivial = 0 := by
    norm_num [computeTransitionProbability, hvalid]
  have hinterp : interpolate opts5 (fun _ _ => true) cfgInt cfgInt =
      [cfgInt, cfgInt, cfgInt, cfgInt, cfgInt, cfgInt] := by
    norm_num [interpolate, opts5, cfgInt, interpolateSequence, hybridStep,
      pushUnique, includes, lerp, jsOr, jsRound, List.range_succ]
    decide
  have hloop : planLoop opts5 archTrivial (fun _ => 0)
      (consecutivePairs [cfgInt, cfgInt, cfgInt, cfgInt, cfgInt, cfgInt]) 0 1 =
      (true, 150, 0) := by
    norm_num [consecutivePairs, planLoop_cons_eq, hvalid, hcost, hctp, opts5,
      planLoop]
  refine ⟨?_, ?_, rfl⟩
  · show (planLoop opts5 archTrivial (fun _ => 0)
      (consecutivePairs (interpolate opts5 (fun _ _ => true) cfgInt cfgInt))
      0 1).1 = true
    rw [hinterp, hloop]
  · show (planLoop opts5 archTrivial (fun _ => 0)
      (consecutivePairs (interpolate opts5 (fun _ _ => true) cfgInt cfgInt))
      0 1).2.1 < opts5.maxTransitionCost
    rw [hinterp, hloop]
    norm_num [opts5]

theorem map_path_assignRanks :
    ∀ (i : ℕ) (l : List RankedPath),
      (assignRanks i l).map (fun r => r.path) = l.map fun r => r.path := by
  intro i l
  induction l generalizing i with
  | nil => rfl
  | cons x xs ih => simp [assignRanks, ih]

theorem map_path_rankWith_perm (sqrt : ℚ → ℚ) (w : Weights) (paths : List PathData) :
    List.Perm ((rankWith sqrt w paths).map fun r => r.path)
      (paths.map fun p => p.path) := by
  unfold rankWith
  rw [map_path_assignRanks]
  have h1 : List.Perm
      ((sortDesc (paths.map (buildRankedItem sqrt w paths))).map fun r => r.path)
      ((paths.map (buildRankedItem sqrt w paths)).map fun r => r.path) :=
    (sortDesc_perm _).map _
  have h2 : (paths.map (buildRankedItem sqrt w paths)).map (fun r => r.path) =
      paths.map fun p => p.path := by
    rw [List.map_map]
    rfl
  rw [h2] at h1
  exact h1

theorem find_path_self_of_nodup :
    ∀ (l : List RankedPath), ((l.map fun r => r.path).Nodup) →
      ∀ x ∈ l, (l.find? fun v => v.path == x.path) = some x := by
  intro l
  induction l with
  | nil => intro _ x hx; cases hx
  | cons y ys ih =>
    intro hnd x hx
    have hnd' : (ys.map fun r => r.path).Nodup := (List.nodup_cons.mp hnd).2
    have hny : y.path ∉ ys.map fun r => r.path := (List.nodup_cons.mp hnd).1
    rcases List.mem_cons.mp hx with rfl | hx'
    · exact List.find?_cons_of_pos _ (by simp)
    · have hne : (y.path == x.path) = false := by
        rw [beq_eq_false_iff_ne]
        intro hcontra
        exact hny (hcontra ▸ List.mem_map_of_mem (fun r => r.path) hx')
      rw [List.find?_cons_of_neg _ (by simp [hne])]
      exact ih hnd' x hx'

theorem rank_resolves_weights (sqrt : ℚ → ℚ) (activeW : Weights)
    (paths : List PathData) :
    rank sqrt activeW paths none = rankWith sqrt activeW paths ∧
    rank sqrt activeW paths (some activeW) = rankWith sqrt activeW paths := by
  constructor <;> rfl

/-- C8: with a non-empty path set whose `path` identities are pairwise
distinct and a non-empty `weightVariations` list in which every entry
equals the currently active weight set, `sensitivityAnalysis` reports
`stability = 1.0` (every variant's `maxChange` is `0`); and in general,
for any non-empty variation list, `stability`
`= max(0, 1 − average(maxChange) / 10)` over the variants. -/
theorem sensitivity_stability (sqrt : ℚ → ℚ) (activeW : Weights)
    (paths : List PathData) (variations : List Weights)
    (hpaths : paths ≠ []) (hids : (paths.map fun p => p.path).Nodup)
    (hvar : variations ≠ []) (hall : ∀ w ∈ variations, w = activeW) :
    (sensitivityAnalysis sqrt activeW paths variations).stability = 1 ∧
    ∀ vs : List Weights, vs ≠ [] →
      (sensitivityAnalysis sqrt activeW paths vs).stability =
        max 0 (1 - (((sensitivityAnalysis sqrt activeW paths vs).analyses.map
          fun a => a.maxChange).sum / (vs.length : ℚ)) / 10) := by
  have hbase_nodup : ((rankWith sqrt activeW paths).map fun r => r.path).Nodup :=
    ((map_path_rankWith_perm sqrt activeW paths).nodup_iff).mpr hids
  have hbase_ne : rankWith sqrt activeW paths ≠ [] :=
    rankWith_ne_nil sqrt activeW paths hpaths
  have hmax : ∀ w ∈ variations, (analysisOf sqrt activeW paths
      (rank sqrt activeW paths none) w).maxChange = 0 := by
    intro w hw
    show listMax (((rank sqrt activeW paths none).map
      (rankChangeOf (rank sqrt activeW paths (some w)))).map
        fun c => (c.change.natAbs : ℚ)) = 0
    rw [hall w hw]
    apply listMax_all_eq 0
    · simp only [ne_eq, List.map_eq_nil_iff]
      exact (rank_resolves_weights sqrt activeW paths).1 ▸ hbase_ne
    · intro v hv
      obtain ⟨c, hc, hcv⟩ := List.mem_map.mp hv
      obtain ⟨bp, hbp, hbpc⟩ := List.mem_map.mp hc
      have hbp' : bp ∈ rankWith sqrt activeW paths :=
        (rank_resolves_weights sqrt activeW paths).1 ▸ hbp
      have hfind : ((rank sqrt activeW paths (some activeW)).find? fun v =>
          v.path == bp.path) = some bp := by
        rw [(rank_resolves_weights sqrt activeW paths).2]
        exact find_path_self_of_nodup _ hbase_nodup bp hbp'
      rw [← hcv, ← hbpc]
      simp [rankChangeOf, hfind]
  constructor
  · show calculateStability
      (variations.map (analysisOf sqrt activeW paths
        (rank sqrt activeW paths none))) = 1
    unfold calculateStability
    rw [if_neg (by
      simp only [List.length_map, ne_eq]
      intro hzero
      exact hvar (List.length_eq_zero.mp hzero))]
    have hsum : ((variations.map (analysisOf sqrt activeW paths
        (rank sqrt activeW paths none))).map fun a => a.maxChange).sum = 0 := by
      apply List.sum_eq_zero
      intro x hx
      obtain ⟨a, ha, hax⟩ := List.mem_map.mp hx
      obtain ⟨w, hw, haw⟩ := List.mem_map.mp ha
      rw [← hax, ← haw]
      exact hmax w hw
    rw [hsum]
    norm_num
  · intro vs hvs
    show calculateStability
      (vs.map (analysisOf sqrt activeW paths (rank sqrt activeW paths none))) = _
    unfold calculateStability
    rw [if_neg (by
      simp only [List.length_map, ne_eq]
      intro hzero
      exact hvs (List.length_eq_zero.mp hzero))]
    simp only [List.length_map]
    rfl

theorem pairwise_insertDesc (x : RankedPath) (l : List RankedPath)
    (h : List.Pairwise (fun a b => b.compositeScore ≤ a.compositeScore) l) :
    List.Pairwise (fun a b => b.compositeScore ≤ a.compositeScore)
      (insertDesc x l) := by
  induction l with
  | nil => simp [insertDesc]
  | cons y ys ih =>
    unfold insertDesc
    by_cases hc : y.compositeScore < x.compositeScore
    · rw [if_pos hc]
      refine List.Pairwise.cons ?_ h
      intro z hz
      rcases List.mem_cons.mp hz with rfl | hz'
      · exact le_of_lt hc
      · exact le_trans (List.rel_of_pairwise_cons h hz') (le_of_lt hc)
    · rw [if_neg hc]
      refine List.Pairwise.cons ?_ (ih (List.Pairwise.of_cons h))
      intro z hz
      rcases mem_insertDesc.mp hz with rfl | hz'
      · exact not_lt.mp hc
      · exact List.rel_of_pairwise_cons h hz'

theorem pairwise_foldl_insertDesc :
    ∀ (l acc : List RankedPath),
      List.Pairwise (fun a b => b.compositeScore ≤ a.compositeScore) acc →
      List.Pairwise (fun a b => b.compositeScore ≤ a.compositeScore)
        (l.foldl (fun acc x => insertDesc x acc) acc) := by
  intro l
  induction l with
  | nil => intro acc h; exact h
  | cons x xs ih =>
    intro acc h
    exact ih _ (pairwise_insertDesc x acc h)

theorem pairwise_sortDesc (l : List RankedPath) :
    List.Pairwise (fun a b => b.compositeScore ≤ a.compositeScore) (sortDesc l) :=
  pairwise_foldl_insertDesc l [] List.Pairwise.nil

theorem scoreEq_true_iff (q : ℚ) (r : RankedPath) :
    scoreEq q r = true ↔ r.compositeScore = q := by
  simp [scoreEq]

theorem filter_insertDesc (q : ℚ) (x : RankedPath) :
    ∀ (acc : List RankedPath),
      List.Pairwise (fun a b => b.compositeScore ≤ a.compositeScore) acc →
      (insertDesc x acc).filter (scoreEq q) =
        acc.filter (scoreEq q) ++
          (if x.compositeScore = q then [x] else []) := by
  intro acc
  induction acc with
  | nil =>
    intro _
    show [x].filter (scoreEq q) = [].filter (scoreEq q) ++ _
    by_cases hq : x.compositeScore = q
    · rw [if_pos hq]
      simp [List.filter, scoreEq, hq]
    · rw [if_neg hq]
      simp [List.filter, scoreEq, hq]
  | cons y ys ih =>
    intro h
    unfold insertDesc
    by_cases hc : y.compositeScore < x.compositeScore
    · rw [if_pos hc]
      by_cases hq : x.compositeScore = q
      · rw [if_pos hq]
        have hnil : (y :: ys).filter (scoreEq q) = [] := by
          rw [List.filter_eq_nil_iff]
          intro z hz
          have hzy : z.compositeScore ≤ y.compositeScore := by
            rcases List.mem_cons.mp hz with rfl | hz'
            · exact le_rfl
            · exact List.rel_of_pairwise_cons h hz'
          have : z.compositeScore < q := lt_of_le_of_lt hzy (hq ▸ hc)
          simp [scoreEq]
          exact ne_of_lt this
        rw [List.filter_cons_of_pos (by simp [scoreEq, hq]), hnil]
        rfl
      · rw [if_neg hq]
        rw [List.filter_cons_of_neg (by simp [scoreEq, hq])]
        simp
    · rw [if_neg hc]
      have hrec := ih (List.Pairwise.of_cons h)
      by_cases hy : y.compositeScore = q
      · rw [List.filter_cons_of_pos (by simp [scoreEq, hy]),
          List.filter_cons_of_pos (by simp [scoreEq, hy]), hrec]
        rfl
      · rw [List.filter_cons_of_neg (by simp [scoreEq, hy]),
          List.filter_cons_of_neg (by simp [scoreEq, hy]), hrec]

theorem filter_foldl_insertDesc (q : ℚ) :
    ∀ (l acc : List RankedPath),
      List.Pairwise (fun a b => b.compositeScore ≤ a.compositeScore) acc →
      (l.foldl (fun acc x => insertDesc x acc) acc).filter (scoreEq q) =
        acc.filter (scoreEq q) ++ l.filter (scoreEq q) := by
  intro l
  induction l with
  | nil => intro acc _; simp
  | cons x xs ih =>
    intro acc h
    show ((xs.foldl (fun acc x => insertDesc x acc)
      (insertDesc x acc)).filter (scoreEq q)) = _
    rw [ih _ (pairwise_insertDesc x acc h), filter_insertDesc q x acc h]
    by_cases hq : x.compositeScore = q
    · rw [if_pos hq, List.filter_cons_of_pos (by simp [scoreEq, hq])]
      simp
    · rw [if_neg hq, List.filter_cons_of_neg (by simp [scoreEq, hq])]
      simp

theorem filter_sortDesc (q : ℚ) (l : List RankedPath) :
    (sortDesc l).filter (scoreEq q) = l.filter (scoreEq q) := by
  have := filter_foldl_insertDesc q l [] List.Pairwise.nil
  simpa using this

theorem map_rank_assignRanks :
    ∀ (i : ℕ) (l : List RankedPath),
      (assignRanks i l).map (fun r => r.rank) = List.range' i l.length := by
  intro i l
  induction l generalizing i with
  | nil => rfl
  | cons x xs ih => simp [assignRanks, ih, List.range'_succ]

theorem map_score_assignRanks :
    ∀ (i : ℕ) (l : List RankedPath),
      (assignRanks i l).map (fun r => r.compositeScore) =
        l.map fun r => r.compositeScore := by
  intro i l
  induction l generalizing i with
  | nil => rfl
  | cons x xs ih => simp [assignRanks, ih]

theorem filter_map_path_assignRanks (q : ℚ) :
    ∀ (i : ℕ) (l : List RankedPath),
      ((assignRanks i l).filter (scoreEq q)).map (fun r => r.path) =
        (l.filter (scoreEq q)).map fun r => r.path := by
  intro i l
  induction l generalizing i with
  | nil => rfl
  | cons x xs ih =>
    show ((({ x with rank := i } : RankedPath) ::
      assignRanks (i + 1) xs).filter (scoreEq q)).map (fun r => r.path) = _
    have hsc : scoreEq q { x with rank := i } = scoreEq q x := rfl
    by_cases hx : scoreEq q x = true
    · rw [List.filter_cons_of_pos (hsc ▸ hx), List.filter_cons_of_pos hx]
      simp only [List.map_cons]
      rw [ih]
    · rw [List.filter_cons_of_neg (by simp [hsc, hx]),
        List.filter_cons_of_neg (by simp [hx])]
      exact ih (i + 1)

theorem pairwise_assignRanks (i : ℕ) (l : List RankedPath)
    (h : List.Pairwise (fun a b => b.compositeScore ≤ a.compositeScore) l) :
    List.Pairwise (fun a b => b.compositeScore ≤ a.compositeScore)
      (assignRanks i l) := by
  have hmap : (assignRanks i l).map (fun r => r.compositeScore) =
      l.map fun r => r.compositeScore := map_score_assignRanks i l
  have h1 : List.Pairwise (fun a b : ℚ => b ≤ a)
      (l.map fun r => r.compositeScore) := List.pairwise_map.mpr h
  rw [← hmap] at h1
  exact List.pairwise_map.mp h1

/-- C2: for a non-empty `N`-path input, `rank` returns `N` entries whose
`rank` fields are exactly `1..N` in output order (dense, no gaps or
repeats), sorted in non-increasing order of `compositeScore`, and stable:
within each composite-score class the output lists the paths in input
order. -/
theorem rank_ranks_sorted_stable (sqrt : ℚ → ℚ) (activeW : Weights)
    (optW : Option Weights) (paths : List PathData) (hne : paths ≠ []) :
    ((rank sqrt activeW paths optW).map fun r => r.rank) =
      List.range' 1 paths.length ∧
    List.Pairwise (fun a b => b.compositeScore ≤ a.compositeScore)
      (rank sqrt activeW paths optW) ∧
    ∀ q : ℚ,
      (((rank sqrt activeW paths optW).filter (scoreEq q)).map fun r => r.path) =
        (((paths.map (buildRankedItem sqrt (optW.getD activeW) paths)).filter
          (scoreEq q)).map fun r => r.path) := by
  refine ⟨?_, ?_, ?_⟩
  · show ((assignRanks 1 (sortDesc (paths.map
      (buildRankedItem sqrt (optW.getD activeW) paths)))).map fun r => r.rank) = _
    rw [map_rank_assignRanks, length_sortDesc, List.length_map]
  · show List.Pairwise _ (assignRanks 1 (sortDesc (paths.map
      (buildRankedItem sqrt (optW.getD activeW) paths))))
    exact pairwise_assignRanks 1 _ (pairwise_sortDesc _)
  · intro q
    show (((assignRanks 1 (sortDesc (paths.map
      (buildRankedItem sqrt (optW.getD activeW) paths)))).filter
        (scoreEq q)).map fun r => r.path) = _
    rw [filter_map_path_assignRanks, filter_sortDesc]

/-- C2 witness: a concrete three-path input with a score tie between the
two `totalCost = 50` paths (identical metrics, distinct identities). -/
theorem rank_ranks_sorted_stable_witness :
    (((rank (fun _ => 0) defaultWeights
      [mkPath 7 (1 / 2) 50 2 1, mkPath 8 (1 / 2) 50 2 1,
        mkPath 9 (1 / 4) 90 4 3] none).map fun r => r.rank) =
      List.range' 1 3) ∧
    List.Pairwise (fun a b => b.compositeScore ≤ a.compositeScore)
      (rank (fun _ => 0) defaultWeights
        [mkPath 7 (1 / 2) 50 2 1, mkPath 8 (1 / 2) 50 2 1,
          mkPath 9 (1 / 4) 90 4 3] none) := by
  have h := rank_ranks_sorted_stable (fun _ => 0) defaultWeights none
    [mkPath 7 (1 / 2) 50 2 1, mkPath 8 (1 / 2) 50 2 1,
      mkPath 9 (1 / 4) 90 4 3] (by simp)
  exact ⟨h.1, h.2.1⟩

/-- C8 witness: two distinct paths, one variation equal to the default
weights. -/
theorem sensitivity_stability_witness :
    (sensitivityAnalysis (fun _ => 0) defaultWeights
      [mkPath 0 (9 / 10) 100 2 1, mkPath 1 (1 / 2) 200 3 2]
      [defaultWeights]).stability = 1 :=
  (sensitivity_stability (fun _ => 0) defaultWeights
    [mkPath 0 (9 / 10) 100 2 1, mkPath 1 (1 / 2) 200 3 2] [defaultWeights]
    (by simp) (by simp [mkPath]) (by simp) (by simp)).1

end PRM
